import Mathlib

/-!
Shallow embedding of the delivery-planning core of the repository:

* `selectOrdersForDelivery` — the 0/1-knapsack selector from
  `src/webapp/backend/internal/service/robot.go` (pre-filter, fast path,
  DP table with `choice` back-pointers, backtracking, periodic context poll
  every 512 processed items).
* `UpdateStatuses` / `UpdateStatusesIfCurrentStatus` — the order-ledger
  write primitives from the repository layer (`src/unnamed/part_001`),
  modelled as pure transformations of an in-memory ledger (a list of rows,
  one per order, mirroring the `orders` table keyed by `order_id`).
* `generateDeliveryPlan` — the commit coordinator from `robot.go`.  The
  snapshot read happens outside the write transaction, so the ledger seen
  by the read and the ledger seen by the conditional write are distinct
  parameters (`dbRead`, `dbWrite`); the sequential, interference-free case
  is `dbRead = dbWrite`.  `WithTimeout` / `ExecTx` wrappers are modelled on
  their success path; the Go `context` is modelled by the predicate
  `done : Nat → Bool` telling whether the context is already cancelled when
  item `i` of the DP loop is processed.

Machine integers (`int`, `int64`) are modelled as unbounded `Int`; the DP
capacity index (a Go array index, hence non-negative) is a `Nat`.
-/

/-- One candidate order as read by `GetShippingOrders`
(`order_id`, product `weight`, product `value`). -/
structure Order where
  orderID : Int
  weight : Int
  value : Int
deriving DecidableEq, Repr

/-- The `model.DeliveryPlan` result structure. Zero values mirror Go's
zero-valued struct fields. -/
structure DeliveryPlan where
  robotID : String := ""
  totalWeight : Int := 0
  totalValue : Int := 0
  orders : List Order := []
deriving DecidableEq, Repr

/-- Sum of the weights of a list of orders. -/
def weightSum (l : List Order) : Int := (l.map Order.weight).sum

/-- Sum of the values of a list of orders. -/
def valueSum (l : List Order) : Int := (l.map Order.value).sum

/-- The pre-filter of `selectOrdersForDelivery`: the Go loop skips an order
when `o.Weight <= 0 || o.Value <= 0` or `o.Weight > robotCapacity`, so an
order is kept exactly when all three negations hold. -/
def keepOrder (robotCapacity : Int) (o : Order) : Bool :=
  decide (0 < o.weight) && decide (0 < o.value) && decide (o.weight ≤ robotCapacity)

/-- The DP value table of `selectOrdersForDelivery`.  Go's `dp[i][c]` (max
value obtainable from the first `i` orders within capacity `c`) equals
`dpVal r c` where `r` is the reversed list of those first `i` orders; the
head of `r` is item `i`, matching the recurrence
`dp[i][c] = max(dp[i-1][c], dp[i-1][c-w]+v)` with the Go tie-break
`take > best` (ties keep `best`, i.e. the item is not taken). -/
def dpVal : List Order → Nat → Int
  | [], _ => 0
  | o :: rest, c =>
    let best := dpVal rest c
    let take : Int :=
      if o.weight ≤ (c : Int) then dpVal rest ((c : Int) - o.weight).toNat + o.value else -1
    if best < take then take else best

/-- Go's `choice[i][c]`: item `i` (head `o`, with `rest` the reversed list of
items `1..i-1`) was marked taken exactly when `take > best` at that cell. -/
def dpChoice (o : Order) (rest : List Order) (c : Nat) : Bool :=
  let best := dpVal rest c
  let take : Int :=
    if o.weight ≤ (c : Int) then dpVal rest ((c : Int) - o.weight).toNat + o.value else -1
  decide (best < take)

/-- The backtracking loop of `selectOrdersForDelivery`: walk items `n..1`
(i.e. the reversed filtered list) with a running capacity cursor, breaking
out as soon as the cursor hits zero (`capLeft <= 0` in Go; the cursor is a
`Nat` here because a chosen item always fits, so it never goes negative). -/
def backtrack : List Order → Nat → List Order
  | [], _ => []
  | o :: rest, capLeft =>
    if capLeft = 0 then []
    else if dpChoice o rest capLeft then
      o :: backtrack rest ((capLeft : Int) - o.weight).toNat
    else backtrack rest capLeft

/-- The periodic cancellation poll of the DP loop: Go checks `ctx.Done()`
whenever the outer loop index `i ∈ 1..n` satisfies `i % 512 == 0`, and
returns `ctx.Err()` at the first such index where the context is done.
The overall run is aborted iff some polled index observes cancellation. -/
def pollCancelled (done : Nat → Bool) (n : Nat) : Bool :=
  (List.range' 1 n).any fun i => i % 512 == 0 && done i

/-- Shallow embedding of `selectOrdersForDelivery` from
`src/webapp/backend/internal/service/robot.go`.  `.error ()` stands for the
Go return `(model.DeliveryPlan{}, ctx.Err())` (a non-nil error, hence no
plan); `.ok plan` stands for `(plan, nil)`. -/
def selectOrdersForDelivery (done : Nat → Bool) (orders : List Order)
    (robotID : String) (robotCapacity : Int) : Except Unit DeliveryPlan :=
  if robotCapacity ≤ 0 ∨ orders = [] then
    .ok { robotID := robotID }
  else
    let filtered := orders.filter (keepOrder robotCapacity)
    if filtered = [] then
      .ok { robotID := robotID }
    else
      let totalWeight := weightSum filtered
      let totalValue := valueSum filtered
      if totalWeight ≤ robotCapacity then
        .ok { robotID := robotID, totalWeight := totalWeight,
              totalValue := totalValue, orders := filtered }
      else
        if pollCancelled done filtered.length then
          .error ()
        else
          let cap := robotCapacity.toNat
          let rev := filtered.reverse
          let selected := backtrack rev cap
          .ok { robotID := robotID, totalWeight := weightSum selected,
                totalValue := dpVal rev cap, orders := selected }

/-- One row of the `orders` table as far as the planning core observes it:
primary key `order_id`, its `shipped_status`, and the joined product
`weight` and `value`. -/
structure LedgerRow where
  orderID : Int
  status : String
  weight : Int
  value : Int
deriving DecidableEq, Repr

/-- The order ledger: the `orders` table contents (one row per order). -/
abbrev Ledger := List LedgerRow

/-- `GetShippingOrders`: `SELECT order_id, weight, value FROM orders JOIN
products WHERE shipped_status = 'shipping'`. -/
def getShippingOrders (db : Ledger) : List Order :=
  (db.filter fun r => r.status == "shipping").map fun r =>
    { orderID := r.orderID, weight := r.weight, value := r.value }

/-- `UpdateStatuses`: for an empty id list return immediately without
touching the database; otherwise `UPDATE orders SET shipped_status = ?
WHERE order_id IN (?)`. -/
def updateStatuses (db : Ledger) (orderIDs : List Int) (newStatus : String) : Ledger :=
  if orderIDs = [] then db
  else db.map fun r =>
    if r.orderID ∈ orderIDs then { r with status := newStatus } else r

/-- A row the conditional bulk update actually changes: it matches the
`WHERE shipped_status = fromStatus AND order_id IN (ids)` guard and the new
value differs from the stored one (MySQL's `RowsAffected` reports rows
changed, and a row set to its current value is not counted). -/
def rowChanged (orderIDs : List Int) (fromStatus newStatus : String) (r : LedgerRow) : Bool :=
  decide (r.status = fromStatus) && decide (r.orderID ∈ orderIDs) &&
    decide (¬ newStatus = r.status)

/-- `UpdateStatusesIfCurrentStatus`: for an empty id list return `(db, 0)`
without touching the database; otherwise `UPDATE orders SET shipped_status
= newStatus WHERE shipped_status = fromStatus AND order_id IN (ids)`,
returning the new table contents and `RowsAffected`. -/
def updateStatusesIfCurrentStatus (db : Ledger) (orderIDs : List Int)
    (fromStatus newStatus : String) : Ledger × Nat :=
  if orderIDs = [] then (db, 0)
  else
    (db.map fun r =>
       if r.status = fromStatus ∧ r.orderID ∈ orderIDs then
         { r with status := newStatus } else r,
     (db.filter (rowChanged orderIDs fromStatus newStatus)).length)

/-- Shallow embedding of `GenerateDeliveryPlan` from `robot.go` (success
path of `WithTimeout`/`ExecTx`).  The snapshot read is issued outside the
write transaction, so the read sees `dbRead` while the conditional write is
applied to `dbWrite` (equal to `dbRead` when nothing runs concurrently).
Returns the plan, the resulting ledger, and the number of rows the
conditional write actually transitioned (0 when no write was issued). -/
def generateDeliveryPlan (done : Nat → Bool) (dbRead dbWrite : Ledger)
    (robotID : String) (capacity : Int) : Except Unit (DeliveryPlan × Ledger × Nat) :=
  match selectOrdersForDelivery done (getShippingOrders dbRead) robotID capacity with
  | .error e => .error e
  | .ok plan =>
    if plan.orders = [] then
      .ok (plan, dbWrite, 0)
    else
      let r := updateStatusesIfCurrentStatus dbWrite
        (plan.orders.map Order.orderID) "shipping" "delivering"
      .ok (plan, r.1, r.2)

/-- Specification-side notion used by the spec's optimality sentences:
`v` is the maximum value achievable by any subset (sub-list) of the
candidates whose total weight is within the capacity. -/
def isMaxValue (candidates : List Order) (capacity : Int) (v : Int) : Prop :=
  (∃ s, s.Sublist candidates ∧ weightSum s ≤ capacity ∧ valueSum s = v) ∧
  (∀ s, s.Sublist candidates → weightSum s ≤ capacity → valueSum s ≤ v)

/-- The `take` option of a DP cell (value `-1` when the item does not fit,
as in the Go code). -/
def dpTake (o : Order) (rest : List Order) (c : Nat) : Int :=
  if o.weight ≤ (c : Int) then dpVal rest ((c : Int) - o.weight).toNat + o.value else -1

theorem dpVal_cons (o : Order) (rest : List Order) (c : Nat) :
    dpVal (o :: rest) c =
      if dpVal rest c < dpTake o rest c then dpTake o rest c else dpVal rest c := rfl

theorem dpChoice_eq (o : Order) (rest : List Order) (c : Nat) :
    dpChoice o rest c = decide (dpVal rest c < dpTake o rest c) := rfl

theorem weightSum_nil : weightSum [] = 0 := rfl

theorem weightSum_cons (o : Order) (l : List Order) :
    weightSum (o :: l) = o.weight + weightSum l := by
  simp [weightSum]

theorem valueSum_nil : valueSum [] = 0 := rfl

theorem valueSum_cons (o : Order) (l : List Order) :
    valueSum (o :: l) = o.value + valueSum l := by
  simp [valueSum]

theorem weightSum_nonneg {s : List Order} (h : ∀ o ∈ s, 0 ≤ o.weight) :
    0 ≤ weightSum s := by
  refine List.sum_nonneg ?_
  intro x hx
  rcases List.mem_map.mp hx with ⟨o, ho, rfl⟩
  exact h o ho

theorem valueSum_nonneg {s : List Order} (h : ∀ o ∈ s, 0 ≤ o.value) :
    0 ≤ valueSum s := by
  refine List.sum_nonneg ?_
  intro x hx
  rcases List.mem_map.mp hx with ⟨o, ho, rfl⟩
  exact h o ho

theorem dpVal_nonneg (l : List Order) (c : Nat) : 0 ≤ dpVal l c := by
  induction l generalizing c with
  | nil => simp [dpVal]
  | cons o rest ih =>
    rw [dpVal_cons]
    split
    · exact le_of_lt (lt_of_le_of_lt (ih c) (by assumption))
    · exact ih c

theorem dpVal_zero {l : List Order} (hw : ∀ o ∈ l, 0 < o.weight) : dpVal l 0 = 0 := by
  induction l with
  | nil => rfl
  | cons o rest ih =>
    have hrest : dpVal rest 0 = 0 := ih fun x hx => hw x (List.mem_cons_of_mem _ hx)
    have htake : dpTake o rest 0 = -1 := by
      have h1 : 0 < o.weight := hw o (List.mem_cons_self _ _)
      have hcond : ¬ o.weight ≤ (((0 : Nat)) : Int) := by push_cast; omega
      rw [dpTake, if_neg hcond]
    rw [dpVal_cons, htake, hrest]
    norm_num

theorem dpVal_cons_ge (o : Order) (rest : List Order) (c : Nat) :
    dpVal rest c ≤ dpVal (o :: rest) c := by
  rw [dpVal_cons]
  split
  · exact le_of_lt (by assumption)
  · exact le_refl _

theorem dpTake_le (o : Order) (rest : List Order) (c : Nat) :
    dpTake o rest c ≤ dpVal (o :: rest) c := by
  rw [dpVal_cons]
  split
  · exact le_refl _
  · exact le_of_not_lt (by assumption)

/-- Every feasible sub-list is dominated by the DP value: soundness half of
the knapsack optimality argument. -/
theorem le_dpVal_of_sublist {s l : List Order} (hs : s.Sublist l) :
    ∀ (_hw : ∀ o ∈ l, 0 < o.weight) (c : Nat),
      weightSum s ≤ (c : Int) → valueSum s ≤ dpVal l c := by
  induction hs with
  | slnil =>
    intro _ c _
    simp [valueSum, dpVal]
  | cons a h ih =>
    rename_i l₁ l₂
    intro hw c hfeas
    exact le_trans
      (ih (fun x hx => hw x (List.mem_cons_of_mem _ hx)) c hfeas)
      (dpVal_cons_ge a l₂ c)
  | cons₂ a h ih =>
    rename_i l₁ l₂
    intro hw c hfeas
    have hwrest : ∀ x ∈ l₂, 0 < x.weight :=
      fun x hx => hw x (List.mem_cons_of_mem _ hx)
    have hs'w : ∀ x ∈ l₁, 0 ≤ x.weight :=
      fun x hx => le_of_lt (hwrest x (h.subset hx))
    have hsum : a.weight + weightSum l₁ ≤ (c : Int) := by
      rw [← weightSum_cons]; exact hfeas
    have how : a.weight ≤ (c : Int) := by
      have := weightSum_nonneg hs'w
      omega
    have hcast : (((c : Int) - a.weight).toNat : Int) = (c : Int) - a.weight :=
      Int.toNat_of_nonneg (by omega)
    have hfeas' : weightSum l₁ ≤ (((c : Int) - a.weight).toNat : Int) := by
      rw [hcast]; omega
    have hih := ih hwrest (((c : Int) - a.weight).toNat) hfeas'
    have htake : dpTake a l₂ c = dpVal l₂ ((c : Int) - a.weight).toNat + a.value := by
      simp [dpTake, how]
    calc valueSum (a :: l₁) = a.value + valueSum l₁ := valueSum_cons a l₁
      _ ≤ a.value + dpVal l₂ ((c : Int) - a.weight).toNat := by omega
      _ = dpTake a l₂ c := by rw [htake]; ring
      _ ≤ dpVal (a :: l₂) c := dpTake_le a l₂ c

/-- The backtracking pass is correct: it produces a sub-list of the item
list whose value is exactly the DP optimum and whose weight fits. -/
theorem backtrack_spec {l : List Order} (hw : ∀ o ∈ l, 0 < o.weight) (c : Nat) :
    (backtrack l c).Sublist l ∧ valueSum (backtrack l c) = dpVal l c ∧
      weightSum (backtrack l c) ≤ (c : Int) := by
  induction l generalizing c with
  | nil =>
    refine ⟨List.Sublist.refl _, rfl, ?_⟩
    simp [backtrack, weightSum]
  | cons o rest ih =>
    have hwrest : ∀ x ∈ rest, 0 < x.weight :=
      fun x hx => hw x (List.mem_cons_of_mem _ hx)
    by_cases hc : c = 0
    · subst hc
      refine ⟨by simp [backtrack], ?_, by simp [backtrack, weightSum]⟩
      rw [show backtrack (o :: rest) 0 = [] from rfl, dpVal_zero hw]
      rfl
    · by_cases hch : dpChoice o rest c = true
      · have hlt : dpVal rest c < dpTake o rest c := by
          have := hch
          rw [dpChoice_eq] at this
          exact of_decide_eq_true this
        have how : o.weight ≤ (c : Int) := by
          by_contra hno
          have : dpTake o rest c = -1 := by simp [dpTake, hno]
          have h0 := dpVal_nonneg rest c
          omega
        have hbt : backtrack (o :: rest) c =
            o :: backtrack rest ((c : Int) - o.weight).toNat := by
          simp [backtrack, hc, hch]
        have hcast : (((c : Int) - o.weight).toNat : Int) = (c : Int) - o.weight :=
          Int.toNat_of_nonneg (by omega)
        obtain ⟨ihs, ihv, ihw⟩ := ih hwrest (((c : Int) - o.weight).toNat)
        refine ⟨?_, ?_, ?_⟩
        · rw [hbt]; exact ihs.cons₂ o
        · rw [hbt, valueSum_cons, ihv, dpVal_cons, if_pos hlt]
          simp [dpTake, how]
          ring
        · rw [hbt, weightSum_cons]
          rw [hcast] at ihw
          omega
      · have hnlt : ¬ dpVal rest c < dpTake o rest c := by
          intro hcon
          exact hch (by rw [dpChoice_eq]; exact decide_eq_true hcon)
        have hbt : backtrack (o :: rest) c = backtrack rest c := by
          simp [backtrack, hc, hch]
        obtain ⟨ihs, ihv, ihw⟩ := ih hwrest c
        refine ⟨?_, ?_, ?_⟩
        · rw [hbt]; exact ihs.cons o
        · rw [hbt, ihv, dpVal_cons, if_neg hnlt]
        · rw [hbt]; exact ihw

theorem mem_filter_keepOrder {orders : List Order} {cap : Int} {o : Order}
    (h : o ∈ orders.filter (keepOrder cap)) :
    0 < o.weight ∧ 0 < o.value ∧ o.weight ≤ cap := by
  have := (List.mem_filter.mp h).2
  simpa [keepOrder, and_assoc] using this

theorem weightSum_reverse (l : List Order) : weightSum l.reverse = weightSum l := by
  simp [weightSum, List.map_reverse, List.sum_reverse]

theorem valueSum_reverse (l : List Order) : valueSum l.reverse = valueSum l := by
  simp [valueSum, List.map_reverse, List.sum_reverse]

theorem valueSum_sublist_le {s t : List Order} (h : s.Sublist t)
    (h0 : ∀ o ∈ t, 0 ≤ o.value) : valueSum s ≤ valueSum t := by
  refine List.Sublist.sum_le_sum (h.map Order.value) ?_
  intro a ha
  rcases List.mem_map.mp ha with ⟨o, ho, rfl⟩
  exact h0 o ho

theorem isMaxValue_nil {cap : Int} (hc : 0 ≤ cap) : isMaxValue [] cap 0 := by
  constructor
  · exact ⟨[], List.Sublist.refl _, by simpa [weightSum] using hc, rfl⟩
  · intro s hs _
    cases List.sublist_nil.mp hs
    simp [valueSum]

/-- Central characterization: on any successful run, the returned
`total_value` is the exact knapsack optimum over the pre-filtered
candidate list.  No hypotheses on the raw candidates are needed because
the pre-filter enforces positive weights and values. -/
theorem select_ok_isMax_filtered (done : Nat → Bool) (orders : List Order)
    (rid : String) (cap : Int) (hc : 0 ≤ cap) (plan : DeliveryPlan)
    (h : selectOrdersForDelivery done orders rid cap = .ok plan) :
    isMaxValue (orders.filter (keepOrder cap)) cap plan.totalValue := by
  unfold selectOrdersForDelivery at h
  split at h
  · -- trivial case: capacity ≤ 0 or empty input
    rename_i htriv
    have hplan : plan = { robotID := rid } := by
      simpa using h.symm
    have hfil : orders.filter (keepOrder cap) = [] := by
      rcases htriv with hcap | hord
      · have hcap0 : cap = 0 := le_antisymm hcap hc
        subst hcap0
        rw [List.filter_eq_nil_iff]
        intro a _
        simp [keepOrder]
        omega
      · subst hord; rfl
    rw [hfil, hplan]
    exact isMaxValue_nil hc
  · -- non-trivial input
    rename_i hntriv
    simp only at h
    split at h
    · -- everything was filtered away
      rename_i hfil
      have hplan : plan = { robotID := rid } := by
        simpa using h.symm
      rw [hfil, hplan]
      exact isMaxValue_nil hc
    · rename_i hfil
      split at h
      · -- fast path: all filtered items fit
        rename_i hfit
        have hplan : plan =
            { robotID := rid, totalWeight := weightSum (orders.filter (keepOrder cap)),
              totalValue := valueSum (orders.filter (keepOrder cap)),
              orders := orders.filter (keepOrder cap) } := by
          simpa using h.symm
        rw [hplan]
        refine ⟨⟨orders.filter (keepOrder cap), List.Sublist.refl _, hfit, rfl⟩, ?_⟩
        intro s hs _
        exact valueSum_sublist_le hs
          (fun o ho => le_of_lt (mem_filter_keepOrder ho).2.1)
      · rename_i hfit
        split at h
        · exact absurd h (by simp)
        · -- DP path
          have hwpos : ∀ o ∈ (orders.filter (keepOrder cap)).reverse, 0 < o.weight := by
            intro o ho
            exact (mem_filter_keepOrder (List.mem_reverse.mp ho)).1
          have hcast : ((cap.toNat : Int)) = cap := Int.toNat_of_nonneg hc
          obtain ⟨hsub, hval, hwt⟩ := backtrack_spec hwpos cap.toNat
          have hplan : plan =
              { robotID := rid,
                totalWeight :=
                  weightSum (backtrack (orders.filter (keepOrder cap)).reverse cap.toNat),
                totalValue := dpVal (orders.filter (keepOrder cap)).reverse cap.toNat,
                orders := backtrack (orders.filter (keepOrder cap)).reverse cap.toNat } := by
            simpa using h.symm
          rw [hplan]
          constructor
          · refine ⟨(backtrack (orders.filter (keepOrder cap)).reverse cap.toNat).reverse,
              ?_, ?_, ?_⟩
            · have := hsub.reverse
              rwa [List.reverse_reverse] at this
            · rw [weightSum_reverse]
              omega
            · rw [valueSum_reverse, hval]
          · intro s hs hsf
            have hs' : s.reverse.Sublist (orders.filter (keepOrder cap)).reverse :=
              hs.reverse
            have : valueSum s.reverse ≤
                dpVal (orders.filter (keepOrder cap)).reverse cap.toNat := by
              refine le_dpVal_of_sublist hs' hwpos cap.toNat ?_
              rw [weightSum_reverse, hcast]
              exact hsf
            rwa [valueSum_reverse] at this

theorem weight_le_weightSum {t : List Order} (hnn : ∀ o ∈ t, 0 ≤ o.weight)
    {o : Order} (ho : o ∈ t) : o.weight ≤ weightSum t := by
  have hsub : [o].Sublist t := List.singleton_sublist.mpr ho
  have := List.Sublist.sum_le_sum (hsub.map Order.weight) ?_
  · simpa [weightSum] using this
  · intro a ha
    rcases List.mem_map.mp ha with ⟨x, hx, rfl⟩
    exact hnn x hx

theorem valueSum_le_filter {t : List Order} {p : Order → Bool}
    (h : ∀ o ∈ t, p o = false → o.value ≤ 0) :
    valueSum t ≤ valueSum (t.filter p) := by
  induction t with
  | nil => exact le_refl _
  | cons o rest ih =>
    have ihr : valueSum rest ≤ valueSum (rest.filter p) :=
      ih fun x hx => h x (List.mem_cons_of_mem _ hx)
    by_cases hp : p o = true
    · rw [List.filter_cons_of_pos hp, valueSum_cons, valueSum_cons]
      omega
    · have hv : o.value ≤ 0 := h o (List.mem_cons_self _ _) (by simpa using hp)
      rw [List.filter_cons_of_neg (by simpa using hp), valueSum_cons]
      omega

/-- Bridging lemma: when every raw candidate has positive weight and
non-negative value, the knapsack optimum over the pre-filtered list is also
the optimum over the raw candidate list (the filter only discards items
that cannot improve any feasible subset). -/
theorem isMaxValue_of_filter {orders : List Order} {cap v : Int}
    (hw : ∀ o ∈ orders, 0 < o.weight) (hv : ∀ o ∈ orders, 0 ≤ o.value)
    (h : isMaxValue (orders.filter (keepOrder cap)) cap v) :
    isMaxValue orders cap v := by
  obtain ⟨⟨s, hs, hsw, hsv⟩, hub⟩ := h
  refine ⟨⟨s, hs.trans (List.filter_sublist _), hsw, hsv⟩, ?_⟩
  intro t ht htw
  have htmem : ∀ o ∈ t, 0 < o.weight ∧ 0 ≤ o.value ∧ o.weight ≤ cap := by
    intro o ho
    refine ⟨hw o (ht.subset ho), hv o (ht.subset ho), ?_⟩
    have hnn : ∀ x ∈ t, 0 ≤ x.weight := fun x hx => le_of_lt (hw x (ht.subset hx))
    exact le_trans (weight_le_weightSum hnn ho) htw
  have hstep : valueSum t ≤ valueSum (t.filter (keepOrder cap)) := by
    refine valueSum_le_filter ?_
    intro o ho hko
    obtain ⟨h1, h2, h3⟩ := htmem o ho
    by_contra hcon
    have hko' : keepOrder cap o = true := by
      simp only [keepOrder, Bool.and_eq_true, decide_eq_true_eq]
      omega
    rw [hko'] at hko
    cases hko
  refine le_trans hstep (hub (t.filter (keepOrder cap)) (ht.filter _) ?_)
  have hsubt : (t.filter (keepOrder cap)).Sublist t := List.filter_sublist _
  have : weightSum (t.filter (keepOrder cap)) ≤ weightSum t := by
    refine List.Sublist.sum_le_sum (hsubt.map Order.weight) ?_
    intro a ha
    rcases List.mem_map.mp ha with ⟨x, hx, rfl⟩
    exact le_of_lt (htmem x hx).1
  omega

/-- C1 (amended): for candidates with positive weights and non-negative
values and capacity ≥ 0, the returned `total_value` is the exact maximum
value achievable by any subset of the candidates whose total weight is
within the capacity. -/
theorem selectOrders_totalValue_optimal (done : Nat → Bool) (orders : List Order)
    (rid : String) (cap : Int) (hw : ∀ o ∈ orders, 0 < o.weight)
    (hv : ∀ o ∈ orders, 0 ≤ o.value) (hc : 0 ≤ cap) (plan : DeliveryPlan)
    (h : selectOrdersForDelivery done orders rid cap = .ok plan) :
    isMaxValue orders cap plan.totalValue :=
  isMaxValue_of_filter hw hv (select_ok_isMax_filtered done orders rid cap hc plan h)

/-- C1 witness: the spec's concrete scenario — four candidates, capacity 5,
optimal value 7 via the first two items. -/
theorem selectOrders_totalValue_optimal_witness :
    isMaxValue [⟨1, 2, 3⟩, ⟨2, 3, 4⟩, ⟨3, 4, 5⟩, ⟨4, 5, 6⟩] 5 7 :=
  selectOrders_totalValue_optimal (fun _ => false)
    [⟨1, 2, 3⟩, ⟨2, 3, 4⟩, ⟨3, 4, 5⟩, ⟨4, 5, 6⟩] "r" 5
    (by decide) (by decide) (by decide)
    { robotID := "r", totalWeight := 5, totalValue := 7,
      orders := [⟨2, 3, 4⟩, ⟨1, 2, 3⟩] } rfl

/-- C1 counterexample: a candidate with weight `0` and positive value is
allowed by the claim ("non-negative integer weights") but is discarded by
the pre-filter (`o.Weight <= 0` skip), so the code returns `total_value 0`
while the true optimum is 5: the claim as stated is false on the code. -/
theorem selectOrders_totalValue_optimal_counterexample :
    selectOrdersForDelivery (fun _ => false) [⟨1, 0, 5⟩] "r" 1 =
      .ok { robotID := "r" } ∧
    ¬ isMaxValue [⟨1, 0, 5⟩] 1 ((0 : Int)) := by
  refine ⟨rfl, ?_⟩
  intro hmax
  have h5 := hmax.2 [⟨1, 0, 5⟩] (List.Sublist.refl _) (by simp [weightSum])
  simp [valueSum] at h5

/-- C2: on every successful run with capacity ≥ 0, the plan is well-formed:
the selected items are (up to order) a duplicate-free sub-collection of the
input candidates, the reported totals are the sums over the selected items,
and the total weight respects the capacity. -/
theorem selectOrders_wellformed (done : Nat → Bool) (orders : List Order)
    (rid : String) (cap : Int) (hc : 0 ≤ cap) (plan : DeliveryPlan)
    (h : selectOrdersForDelivery done orders rid cap = .ok plan) :
    plan.orders.Subperm orders ∧ plan.totalWeight = weightSum plan.orders ∧
      plan.totalValue = valueSum plan.orders ∧ plan.totalWeight ≤ cap := by
  unfold selectOrdersForDelivery at h
  split at h
  · have hplan : plan = { robotID := rid } := by simpa using h.symm
    rw [hplan]
    exact ⟨List.nil_subperm, rfl, rfl, hc⟩
  · rename_i hntriv
    simp only at h
    split at h
    · have hplan : plan = { robotID := rid } := by simpa using h.symm
      rw [hplan]
      exact ⟨List.nil_subperm, rfl, rfl, hc⟩
    · rename_i hfil
      split at h
      · rename_i hfit
        have hplan : plan =
            { robotID := rid, totalWeight := weightSum (orders.filter (keepOrder cap)),
              totalValue := valueSum (orders.filter (keepOrder cap)),
              orders := orders.filter (keepOrder cap) } := by
          simpa using h.symm
        rw [hplan]
        exact ⟨(List.filter_sublist _).subperm, rfl, rfl, hfit⟩
      · rename_i hfit
        split at h
        · exact absurd h (by simp)
        · have hwpos : ∀ o ∈ (orders.filter (keepOrder cap)).reverse, 0 < o.weight := by
            intro o ho
            exact (mem_filter_keepOrder (List.mem_reverse.mp ho)).1
          have hcast : ((cap.toNat : Int)) = cap := by
            refine Int.toNat_of_nonneg hc
          obtain ⟨hsub, hval, hwt⟩ := backtrack_spec hwpos cap.toNat
          have hplan : plan =
              { robotID := rid,
                totalWeight :=
                  weightSum (backtrack (orders.filter (keepOrder cap)).reverse cap.toNat),
                totalValue := dpVal (orders.filter (keepOrder cap)).reverse cap.toNat,
                orders := backtrack (orders.filter (keepOrder cap)).reverse cap.toNat } := by
            simpa using h.symm
          rw [hplan]
          refine ⟨?_, rfl, hval.symm, ?_⟩
          · refine List.Subperm.trans hsub.subperm ?_
            refine List.Subperm.trans (List.reverse_perm _).subperm
              (List.filter_sublist _).subperm
          · show weightSum (backtrack (orders.filter (keepOrder cap)).reverse cap.toNat) ≤ cap
            exact hcast ▸ hwt

/-- C2 witness: the spec scenario again, checked concretely. -/
theorem selectOrders_wellformed_witness :
    ([⟨2, 3, 4⟩, ⟨1, 2, 3⟩] : List Order).Subperm
        [⟨1, 2, 3⟩, ⟨2, 3, 4⟩, ⟨3, 4, 5⟩, ⟨4, 5, 6⟩] ∧
      (5 : Int) = weightSum [⟨2, 3, 4⟩, ⟨1, 2, 3⟩] ∧
      (7 : Int) = valueSum [⟨2, 3, 4⟩, ⟨1, 2, 3⟩] ∧ (5 : Int) ≤ 5 :=
  selectOrders_wellformed (fun _ => false)
    [⟨1, 2, 3⟩, ⟨2, 3, 4⟩, ⟨3, 4, 5⟩, ⟨4, 5, 6⟩] "r" 5 (by decide)
    { robotID := "r", totalWeight := 5, totalValue := 7,
      orders := [⟨2, 3, 4⟩, ⟨1, 2, 3⟩] } rfl

/-- C9: with the candidate list held fixed, a larger capacity never yields
a smaller `total_value` (monotonicity of the optimum). -/
theorem selectOrders_totalValue_monotone (d1 d2 : Nat → Bool) (orders : List Order)
    (rid : String) (c1 c2 : Int) (h0 : 0 ≤ c1) (h12 : c1 ≤ c2)
    (p1 p2 : DeliveryPlan)
    (h1 : selectOrdersForDelivery d1 orders rid c1 = .ok p1)
    (h2 : selectOrdersForDelivery d2 orders rid c2 = .ok p2) :
    p1.totalValue ≤ p2.totalValue := by
  have hm1 := select_ok_isMax_filtered d1 orders rid c1 h0 p1 h1
  have hm2 := select_ok_isMax_filtered d2 orders rid c2 (le_trans h0 h12) p2 h2
  obtain ⟨⟨s, hs, hsw, hsv⟩, _⟩ := hm1
  obtain ⟨_, hub⟩ := hm2
  have hmono : (orders.filter (keepOrder c1)).Sublist (orders.filter (keepOrder c2)) := by
    refine List.monotone_filter_right _ ?_
    intro a ha
    simp [keepOrder] at ha ⊢
    omega
  exact hsv ▸ hub s (hs.trans hmono) (le_trans hsw h12)

/-- C9 witness: capacities 3 and 5 on the spec scenario give values 4 ≤ 7. -/
theorem selectOrders_totalValue_monotone_witness : (4 : Int) ≤ 7 :=
  selectOrders_totalValue_monotone (fun _ => false) (fun _ => false)
    [⟨1, 2, 3⟩, ⟨2, 3, 4⟩, ⟨3, 4, 5⟩, ⟨4, 5, 6⟩] "r" 3 5 (by decide) (by decide)
    { robotID := "r", totalWeight := 3, totalValue := 4, orders := [⟨2, 3, 4⟩] }
    { robotID := "r", totalWeight := 5, totalValue := 7,
      orders := [⟨2, 3, 4⟩, ⟨1, 2, 3⟩] } rfl rfl

theorem pollCancelled_congr {d1 d2 : Nat → Bool}
    (h : ∀ i, i % 512 = 0 → d1 i = d2 i) (n : Nat) :
    pollCancelled d1 n = pollCancelled d2 n := by
  unfold pollCancelled
  generalize List.range' 1 n = l
  induction l with
  | nil => rfl
  | cons a l ih =>
    rw [List.any_cons, List.any_cons, ih]
    by_cases ha : a % 512 = 0
    · rw [h a ha]
    · have hf : (a % 512 == 0) = false := by simpa using ha
      simp [hf]

/-- The selector signals a cancellation error exactly when it reaches the
DP phase and one of the periodic polls (every 512 processed items)
observes a cancelled context. -/
theorem select_error_iff (done : Nat → Bool) (orders : List Order)
    (rid : String) (cap : Int) :
    selectOrdersForDelivery done orders rid cap = .error () ↔
      ¬(cap ≤ 0 ∨ orders = []) ∧ orders.filter (keepOrder cap) ≠ [] ∧
        ¬ weightSum (orders.filter (keepOrder cap)) ≤ cap ∧
        pollCancelled done (orders.filter (keepOrder cap)).length = true := by
  unfold selectOrdersForDelivery
  split
  · rename_i h1
    simp [h1]
  · rename_i h1
    simp only
    split
    · rename_i h2
      simp [h1, h2]
    · rename_i h2
      split
      · rename_i h3
        simp [h1, h2, h3]
      · rename_i h3
        split
        · rename_i h4
          simp [h1, h2, h3, h4]
        · rename_i h4
          simp [h1, h2, h3, h4]

/-- C5: the selector depends on the cancellation signal only at the fixed
coarse polling indices (multiples of 512 in the outer item loop, not every
inner-loop step), and it returns the cancellation error — never any plan —
exactly when a poll observes cancellation during the DP phase. -/
theorem selectOrders_cancellation (done : Nat → Bool) (orders : List Order)
    (rid : String) (cap : Int) :
    (∀ d2 : Nat → Bool, (∀ i, i % 512 = 0 → done i = d2 i) →
        selectOrdersForDelivery done orders rid cap =
          selectOrdersForDelivery d2 orders rid cap) ∧
    (selectOrdersForDelivery done orders rid cap = .error () ↔
      ¬(cap ≤ 0 ∨ orders = []) ∧ orders.filter (keepOrder cap) ≠ [] ∧
        ¬ weightSum (orders.filter (keepOrder cap)) ≤ cap ∧
        pollCancelled done (orders.filter (keepOrder cap)).length = true) := by
  constructor
  · intro d2 hagree
    unfold selectOrdersForDelivery
    simp only [pollCancelled_congr hagree]
  · exact select_error_iff done orders rid cap

set_option maxRecDepth 40000 in
/-- C5 witness: 512 one-unit items against capacity 1 reach the DP phase,
the poll at item 512 observes the cancelled context, and the run aborts
with the cancellation error (not a plan). -/
theorem selectOrders_cancellation_witness :
    selectOrdersForDelivery (fun _ => true)
      ((List.range 512).map fun i => ⟨(i : Int), 1, 1⟩) "r" 1 = .error () :=
  (selectOrders_cancellation (fun _ => true)
      ((List.range 512).map fun i => ⟨(i : Int), 1, 1⟩) "r" 1).2.mpr
    ⟨by decide, by decide, by decide, by decide⟩

/-- C6 (amended): a non-positive capacity yields a successful empty plan
(not an error), and candidates with non-positive weight or value are
silently discarded before optimization — any selected item has positive
weight and value and fits the capacity. -/
theorem selectOrders_invalid_inputs (done : Nat → Bool) (orders : List Order)
    (rid : String) (cap : Int) :
    (cap ≤ 0 → selectOrdersForDelivery done orders rid cap = .ok { robotID := rid }) ∧
    (∀ plan, selectOrdersForDelivery done orders rid cap = .ok plan →
      ∀ o ∈ plan.orders, 0 < o.weight ∧ 0 < o.value ∧ o.weight ≤ cap) := by
  constructor
  · intro hcap
    unfold selectOrdersForDelivery
    rw [if_pos (Or.inl hcap)]
  · intro plan h o ho
    unfold selectOrdersForDelivery at h
    split at h
    · have hplan : plan = { robotID := rid } := by simpa using h.symm
      rw [hplan] at ho
      cases ho
    · simp only at h
      split at h
      · have hplan : plan = { robotID := rid } := by simpa using h.symm
        rw [hplan] at ho
        cases ho
      · split at h
        · have hplan : plan =
              { robotID := rid, totalWeight := weightSum (orders.filter (keepOrder cap)),
                totalValue := valueSum (orders.filter (keepOrder cap)),
                orders := orders.filter (keepOrder cap) } := by
            simpa using h.symm
          rw [hplan] at ho
          exact mem_filter_keepOrder ho
        · split at h
          · exact absurd h (by simp)
          · have hwpos : ∀ x ∈ (orders.filter (keepOrder cap)).reverse, 0 < x.weight := by
              intro x hx
              exact (mem_filter_keepOrder (List.mem_reverse.mp hx)).1
            obtain ⟨hsub, _, _⟩ := backtrack_spec hwpos cap.toNat
            have hplan : plan =
                { robotID := rid,
                  totalWeight :=
                    weightSum (backtrack (orders.filter (keepOrder cap)).reverse cap.toNat),
                  totalValue := dpVal (orders.filter (keepOrder cap)).reverse cap.toNat,
                  orders := backtrack (orders.filter (keepOrder cap)).reverse cap.toNat } := by
              simpa using h.symm
            rw [hplan] at ho
            exact mem_filter_keepOrder (List.mem_reverse.mp (hsub.subset ho))

/-- C6 witness: a zero capacity returns the successful empty plan. -/
theorem selectOrders_invalid_inputs_witness :
    selectOrdersForDelivery (fun _ => false) [⟨1, 2, 3⟩] "r" 0 =
      .ok { robotID := "r" } :=
  (selectOrders_invalid_inputs (fun _ => false) [⟨1, 2, 3⟩] "r" 0).1 (by decide)

/-- C6 counterexample: a negative capacity, and likewise malformed
candidates (negative weight or value), are not rejected with an error —
both calls return a successful (empty) plan, so no InvalidInput error
exists in the code. -/
theorem selectOrders_invalid_inputs_counterexample :
    selectOrdersForDelivery (fun _ => false) [⟨1, 2, 3⟩] "r" (-1) =
      .ok { robotID := "r" } ∧
    selectOrdersForDelivery (fun _ => false) [⟨1, -2, 3⟩, ⟨2, 2, -3⟩] "r" 10 =
      .ok { robotID := "r" } :=
  ⟨rfl, rfl⟩

theorem updateIf_eq (db : Ledger) (orderIDs : List Int) (fs ns : String) :
    updateStatusesIfCurrentStatus db orderIDs fs ns =
      (db.map fun r =>
         if r.status = fs ∧ r.orderID ∈ orderIDs then { r with status := ns } else r,
       (db.filter (rowChanged orderIDs fs ns)).length) := by
  unfold updateStatusesIfCurrentStatus
  split
  · rename_i hids
    subst hids
    simp only [Prod.mk.injEq]
    refine ⟨?_, ?_⟩
    · symm
      refine List.map_id'' ?_ db
      intro r
      rw [if_neg]
      simp
    · symm
      rw [List.length_eq_zero, List.filter_eq_nil_iff]
      intro a _
      simp [rowChanged]
  · rfl

theorem rowChanged_iff (orderIDs : List Int) (fs ns : String) (r : LedgerRow) :
    rowChanged orderIDs fs ns r = true ↔
      ((if r.status = fs ∧ r.orderID ∈ orderIDs then
          { r with status := ns } else r) : LedgerRow).status ≠ r.status := by
  constructor
  · intro hT
    have hT' : ((r.status = fs ∧ r.orderID ∈ orderIDs) ∧ ¬ ns = r.status) := by
      simpa [rowChanged, Bool.and_eq_true, decide_eq_true_eq] using hT
    rw [if_pos hT'.1]
    simpa using hT'.2
  · intro hT
    by_cases h : r.status = fs ∧ r.orderID ∈ orderIDs
    · rw [if_pos h] at hT
      simp only [rowChanged, Bool.and_eq_true, decide_eq_true_eq]
      exact ⟨⟨h.1, h.2⟩, by simpa using hT⟩
    · rw [if_neg h] at hT
      exact absurd rfl hT

theorem rowChanged_eq_decide (orderIDs : List Int) (fs ns : String) (r : LedgerRow) :
    rowChanged orderIDs fs ns r =
      decide (((if r.status = fs ∧ r.orderID ∈ orderIDs then
          { r with status := ns } else r) : LedgerRow).status ≠ r.status) := by
  rw [Bool.eq_iff_iff, decide_eq_true_eq]
  exact rowChanged_iff orderIDs fs ns r

/-- C3: the conditional bulk transition keeps the table size, rewrites a
row's status to the new status exactly when the row is among the requested
ids and still holds the expected prior status (all other rows are left
unchanged), and returns the number of rows it actually transitioned, i.e.
whose stored status changed. -/
theorem updateStatusesIfCurrentStatus_spec (db : Ledger) (orderIDs : List Int)
    (fs ns : String) :
    ((updateStatusesIfCurrentStatus db orderIDs fs ns).1.length = db.length) ∧
    (∀ i : Nat, (updateStatusesIfCurrentStatus db orderIDs fs ns).1[i]? =
        db[i]?.map fun r =>
          if r.status = fs ∧ r.orderID ∈ orderIDs then { r with status := ns } else r) ∧
    ((updateStatusesIfCurrentStatus db orderIDs fs ns).2 =
      (db.zip (updateStatusesIfCurrentStatus db orderIDs fs ns).1).countP
        fun p => decide (p.2.status ≠ p.1.status)) := by
  rw [updateIf_eq]
  refine ⟨List.length_map _ _, ?_, ?_⟩
  · intro i
    exact List.getElem?_map _ db i
  · simp only [← List.countP_eq_length_filter]
    induction db with
    | nil => rfl
    | cons r rest ih =>
      simp only [List.countP_cons, List.map_cons, List.zip_cons_cons]
      rw [ih, rowChanged_eq_decide]

theorem rowChanged_true_iff (orderIDs : List Int) (fs ns : String) (r : LedgerRow) :
    rowChanged orderIDs fs ns r = true ↔
      r.status = fs ∧ r.orderID ∈ orderIDs ∧ ¬ ns = r.status := by
  simp [rowChanged, and_assoc]

/-- Per-row accounting for two chained conditional writes: a row
contributes to at most one of the two transition counts, and only when it
initially held the expected status. -/
theorem row_double_claim_le (ids1 ids2 : List Int) (fs ns : String) (hne : fs ≠ ns)
    (r : LedgerRow) :
    ((if rowChanged ids1 fs ns r = true then 1 else 0) : Nat) +
      (if rowChanged ids2 fs ns
          ((if r.status = fs ∧ r.orderID ∈ ids1 then { r with status := ns } else r) :
            LedgerRow) = true then 1 else 0) ≤
      (if decide (r.status = fs) = true then 1 else 0) := by
  by_cases hm : r.status = fs ∧ r.orderID ∈ ids1
  · rw [if_pos hm]
    have h2 : rowChanged ids2 fs ns ({ r with status := ns } : LedgerRow) = false := by
      rw [Bool.eq_false_iff, Ne, rowChanged_true_iff]
      intro hx
      exact hne hx.1.symm
    have hp : decide (r.status = fs) = true := decide_eq_true hm.1
    rw [h2, hp]
    by_cases h1 : rowChanged ids1 fs ns r = true
    · rw [h1]; simp
    · rw [Bool.eq_false_iff.mpr h1]; simp
  · rw [if_neg hm]
    have h1 : rowChanged ids1 fs ns r = false := by
      rw [Bool.eq_false_iff, Ne, rowChanged_true_iff]
      intro hx
      exact hm ⟨hx.1, hx.2.1⟩
    rw [h1]
    by_cases h2 : rowChanged ids2 fs ns r = true
    · have hp : decide (r.status = fs) = true :=
        decide_eq_true ((rowChanged_true_iff ids2 fs ns r).mp h2).1
      rw [h2, hp]
      simp
    · rw [Bool.eq_false_iff.mpr h2]
      simp

/-- C4: the serialization of two atomic conditional bulk transitions (each
one guarded `UPDATE` statement, as issued by two concurrent
`GenerateDeliveryPlan` calls) never transitions the same row twice: a row
claimed by the first write no longer holds the expected status, so the
second write's guard excludes it, and the two transitioned counts sum to
at most the number of rows initially in the expected status. -/
theorem condUpdate_no_double_claim (db : Ledger) (ids1 ids2 : List Int)
    (fs ns : String) (hne : fs ≠ ns) :
    (∀ i : Nat, ∀ a b : LedgerRow, db[i]? = some a →
        (updateStatusesIfCurrentStatus db ids1 fs ns).1[i]? = some b →
        ¬ ((a.status = fs ∧ a.orderID ∈ ids1) ∧ (b.status = fs ∧ b.orderID ∈ ids2))) ∧
    ((updateStatusesIfCurrentStatus db ids1 fs ns).2 +
        (updateStatusesIfCurrentStatus
          (updateStatusesIfCurrentStatus db ids1 fs ns).1 ids2 fs ns).2 ≤
      db.countP fun r => decide (r.status = fs)) := by
  constructor
  · intro i a b ha hb hcon
    rw [updateIf_eq] at hb
    simp only [List.getElem?_map, ha, Option.map_some'] at hb
    rw [if_pos ⟨hcon.1.1, hcon.1.2⟩] at hb
    have hb' : b = { a with status := ns } := (Option.some.inj hb).symm
    have hbs : b.status = ns := by rw [hb']
    have hfn : fs = ns := by rw [← hcon.2.1]; exact hbs
    exact hne hfn
  · rw [updateIf_eq, updateIf_eq]
    simp only [← List.countP_eq_length_filter]
    induction db with
    | nil => simp
    | cons r rest ih =>
      rw [List.map_cons, List.countP_cons, List.countP_cons, List.countP_cons]
      have key := row_double_claim_le ids1 ids2 fs ns hne r
      omega

/-- C3 witness: a three-row ledger where only the requested id still in
the expected status transitions; the count is 1. -/
theorem updateStatusesIfCurrentStatus_spec_witness :
    ((updateStatusesIfCurrentStatus
        [⟨1, "shipping", 2, 3⟩, ⟨2, "delivering", 1, 1⟩, ⟨3, "shipping", 4, 5⟩]
        [1, 2] "shipping" "delivering").1.length = 3) ∧
    (∀ i : Nat, (updateStatusesIfCurrentStatus
        [⟨1, "shipping", 2, 3⟩, ⟨2, "delivering", 1, 1⟩, ⟨3, "shipping", 4, 5⟩]
        [1, 2] "shipping" "delivering").1[i]? =
      (([⟨1, "shipping", 2, 3⟩, ⟨2, "delivering", 1, 1⟩, ⟨3, "shipping", 4, 5⟩] :
          Ledger))[i]?.map fun r =>
        if r.status = "shipping" ∧ r.orderID ∈ [1, 2] then
          { r with status := "delivering" } else r) ∧
    ((updateStatusesIfCurrentStatus
        [⟨1, "shipping", 2, 3⟩, ⟨2, "delivering", 1, 1⟩, ⟨3, "shipping", 4, 5⟩]
        [1, 2] "shipping" "delivering").2 =
      List.countP (fun p => decide (p.2.status ≠ p.1.status))
        (List.zip
          ([⟨1, "shipping", 2, 3⟩, ⟨2, "delivering", 1, 1⟩, ⟨3, "shipping", 4, 5⟩] :
            Ledger)
          (updateStatusesIfCurrentStatus
            [⟨1, "shipping", 2, 3⟩, ⟨2, "delivering", 1, 1⟩, ⟨3, "shipping", 4, 5⟩]
            [1, 2] "shipping" "delivering").1)) :=
  updateStatusesIfCurrentStatus_spec
    [⟨1, "shipping", 2, 3⟩, ⟨2, "delivering", 1, 1⟩, ⟨3, "shipping", 4, 5⟩]
    [1, 2] "shipping" "delivering"

/-- C4 witness: two writes both requesting order 7; the first claims it
(count 1), the second is excluded by the guard (count 0), and 1 + 0 is at
most the single initially ready row. -/
theorem condUpdate_no_double_claim_witness :
    (updateStatusesIfCurrentStatus [⟨7, "shipping", 1, 1⟩] [7] "shipping" "delivering").2 +
      (updateStatusesIfCurrentStatus
        (updateStatusesIfCurrentStatus [⟨7, "shipping", 1, 1⟩] [7]
          "shipping" "delivering").1 [7] "shipping" "delivering").2 ≤
      ((([⟨7, "shipping", 1, 1⟩] : Ledger)).countP fun r => decide (r.status = "shipping")) :=
  (condUpdate_no_double_claim [⟨7, "shipping", 1, 1⟩] [7] [7] "shipping" "delivering"
    (by decide)).2

/-- C10: for an empty id list, both status-update operations succeed
immediately, return a transitioned count of 0 (conditional variant), and
leave every order's status unchanged (the ledger is returned as-is). -/
theorem updateStatuses_empty_noop (db : Ledger) (fs ns : String) :
    updateStatuses db [] ns = db ∧
      updateStatusesIfCurrentStatus db [] fs ns = (db, 0) :=
  ⟨rfl, rfl⟩

/-- C7: when the selector returns a plan with zero items, the coordinator
succeeds with that empty plan, issues no write (the ledger is returned
unchanged), and reports 0 transitioned rows. -/
theorem generate_empty_no_write (done : Nat → Bool) (dbRead dbWrite : Ledger)
    (rid : String) (cap : Int) (plan : DeliveryPlan)
    (hsel : selectOrdersForDelivery done (getShippingOrders dbRead) rid cap = .ok plan)
    (hempty : plan.orders = []) :
    generateDeliveryPlan done dbRead dbWrite rid cap = .ok (plan, dbWrite, 0) := by
  unfold generateDeliveryPlan
  rw [hsel]
  simp [hempty]

/-- C7 witness: no order is in the ready status, so the selector selects
nothing and an unrelated ledger is left untouched. -/
theorem generate_empty_no_write_witness :
    generateDeliveryPlan (fun _ => false) [⟨1, "arrived", 1, 1⟩]
      [⟨2, "shipping", 1, 1⟩] "r" 5 =
      .ok ({ robotID := "r" }, [⟨2, "shipping", 1, 1⟩], 0) :=
  generate_empty_no_write (fun _ => false) [⟨1, "arrived", 1, 1⟩]
    [⟨2, "shipping", 1, 1⟩] "r" 5 { robotID := "r" } rfl rfl

/-- C8: whenever the selector selected at least one order, the coordinator
returns the originally computed plan together with the conditional write's
outcome — in particular also when the write transitions fewer rows than
were selected (a shortfall): the plan is not trimmed to the transitioned
subset and the call still succeeds. -/
theorem generate_shortfall_keeps_plan (done : Nat → Bool) (dbRead dbWrite : Ledger)
    (rid : String) (cap : Int) (plan : DeliveryPlan)
    (hsel : selectOrdersForDelivery done (getShippingOrders dbRead) rid cap = .ok plan)
    (hne : plan.orders ≠ [])
    (_hshort : (updateStatusesIfCurrentStatus dbWrite (plan.orders.map Order.orderID)
        "shipping" "delivering").2 < plan.orders.length) :
    generateDeliveryPlan done dbRead dbWrite rid cap =
      .ok (plan,
        (updateStatusesIfCurrentStatus dbWrite (plan.orders.map Order.orderID)
          "shipping" "delivering").1,
        (updateStatusesIfCurrentStatus dbWrite (plan.orders.map Order.orderID)
          "shipping" "delivering").2) := by
  unfold generateDeliveryPlan
  rw [hsel]
  simp [hne]

/-- C8 witness: order 1 is ready in the read snapshot but already claimed
in the write-time ledger, so the write transitions 0 of 1 selected rows;
the returned plan still carries the original selection and totals. -/
theorem generate_shortfall_keeps_plan_witness :
    generateDeliveryPlan (fun _ => false) [⟨1, "shipping", 1, 1⟩]
      [⟨1, "delivering", 1, 1⟩] "r" 1 =
      .ok ({ robotID := "r", totalWeight := 1, totalValue := 1,
             orders := [⟨1, 1, 1⟩] }, [⟨1, "delivering", 1, 1⟩], 0) :=
  generate_shortfall_keeps_plan (fun _ => false) [⟨1, "shipping", 1, 1⟩]
    [⟨1, "delivering", 1, 1⟩] "r" 1
    { robotID := "r", totalWeight := 1, totalValue := 1, orders := [⟨1, 1, 1⟩] }
    rfl (by decide) (by decide)

example :
    selectOrdersForDelivery (fun _ => false)
      [⟨1, 2, 3⟩, ⟨2, 3, 4⟩, ⟨3, 4, 5⟩, ⟨4, 5, 6⟩] "r" 5 =
    .ok { robotID := "r", totalWeight := 5, totalValue := 7,
          orders := [⟨2, 3, 4⟩, ⟨1, 2, 3⟩] } := by
  rfl

example :
    selectOrdersForDelivery (fun _ => false) [⟨1, 2, 3⟩] "r" 10 =
    .ok { robotID := "r", totalWeight := 2, totalValue := 3,
          orders := [⟨1, 2, 3⟩] } := by
  rfl

example :
    selectOrdersForDelivery (fun _ => false) [⟨1, 0, 5⟩] "r" 1 =
    .ok { robotID := "r" } := by
  rfl
